import Mathlib

/-!
Verification of the blt byte-stream tokenizer core.

This file gives a shallow embedding of the core logic of the repository:

* `src/blt_core/src/tokenizer.rs` — the tokenization strategies
  (`BpeStrategy::process_chunk`, `PassthroughStrategy::process_chunk`);
* `src/blt_core/src/chunking.rs` — the chunk-size planner
  (`get_effective_chunk_size`);
* `src/blt_core/src/lib.rs` — the content-type marker
  (`ContentType::get_token_value`, `prepend_content_type_token`);
* `src/blt_core/src/pipeline.rs` — the dispatch/reorder pipeline
  (`write_ordered_results`, `process_received_results`,
  `run_stream_pipeline`, `run_mmap_pipeline`).

Machine integers (`u8`, `u16`, `u64`, `usize`) are modelled as `Nat`; no
arithmetic in the modelled code can overflow its Rust type on the values the
code produces, and where a `u16` is serialized the embedding takes the value
modulo `2 ^ 16` explicitly.  The worker scheduler is modelled by the order in
which per-chunk results arrive on the completion channel: every schedule of
the Rust program delivers each chunk id exactly once, in some order, so the
pipeline is quantified over an arbitrary arrival order (a permutation of the
chunk ids).  `HashMap` is modelled as an association list with
overwrite-on-insert and remove-all-occurrences, which coincides with
`HashMap` behaviour because keys are never inserted twice.
-/

/-! ### Byte-pair merge strategy (`src/blt_core/src/tokenizer.rs`) -/

/-- The BPE merge table, `pub type BpeMerges = HashMap<(u16, u16), u16>` from
`src/blt_core/src/lib.rs`, modelled as an association list. -/
def BpeMerges : Type := List ((Nat × Nat) × Nat)

/-- `self.bpe_merges.get(&(a, b))`: first-match lookup in the merge table. -/
def lookupMerge : BpeMerges → Nat × Nat → Option Nat
  | [], _ => none
  | (p, v) :: rest, q => if p = q then some v else lookupMerge rest q

/-- One left-to-right pass of the `while i < tokens.len()` loop in
`BpeStrategy::process_chunk` (`src/blt_core/src/tokenizer.rs` lines 64-81):
returns the rebuilt token vector `new_tokens` and the `merges_found` flag. -/
def mergePass (merges : BpeMerges) : List Nat → List Nat × Bool
  | [] => ([], false)
  | [t] => ([t], false)
  | t1 :: t2 :: rest =>
    match lookupMerge merges (t1, t2) with
    | some nt =>
      let r := mergePass merges rest
      (nt :: r.1, true)
    | none =>
      let r := mergePass merges (t2 :: rest)
      (t1 :: r.1, r.2)

/-- A pass never lengthens the token vector. -/
theorem mergePass_length_le (merges : BpeMerges) :
    ∀ l : List Nat, (mergePass merges l).1.length ≤ l.length
  | [] => by simp [mergePass]
  | [t] => by simp [mergePass]
  | t1 :: t2 :: rest => by
    cases hm : lookupMerge merges (t1, t2) with
    | some nt =>
      have := mergePass_length_le merges rest
      simp [mergePass, hm]
      omega
    | none =>
      have := mergePass_length_le merges (t2 :: rest)
      simp [mergePass, hm] at this ⊢
      omega

/-- A pass that performs at least one merge strictly shortens the token
vector (each merge replaces two tokens by one). -/
theorem mergePass_length_lt (merges : BpeMerges) :
    ∀ l : List Nat, (mergePass merges l).2 = true →
      (mergePass merges l).1.length < l.length
  | [], h => by simp [mergePass] at h
  | [t], h => by simp [mergePass] at h
  | t1 :: t2 :: rest, h => by
    cases hm : lookupMerge merges (t1, t2) with
    | some nt =>
      have hle : (mergePass merges rest).1.length ≤ rest.length :=
        mergePass_length_le merges rest
      simp [mergePass, hm]
      omega
    | none =>
      simp [mergePass, hm] at h ⊢
      have := mergePass_length_lt merges (t2 :: rest) h
      simpa using this

/-- The `loop { ... }` in `BpeStrategy::process_chunk`: run passes until one
performs zero merges; the token vector after the final pass is returned. -/
def mergeLoop (merges : BpeMerges) (tokens : List Nat) : List Nat :=
  let r := mergePass merges tokens
  if h : r.2 = true then mergeLoop merges r.1 else r.1
termination_by tokens.length
decreasing_by exact mergePass_length_lt merges tokens h

/-- Number of executions of the pass loop body in `BpeStrategy::process_chunk`
for a non-empty chunk (the loop always runs at least once). -/
def passCount (merges : BpeMerges) (tokens : List Nat) : Nat :=
  let r := mergePass merges tokens
  if h : r.2 = true then passCount merges r.1 + 1 else 1
termination_by tokens.length
decreasing_by exact mergePass_length_lt merges tokens h

/-- A pass that reports `merges_found = false` rebuilds the token vector
unchanged. -/
theorem mergePass_false_eq (merges : BpeMerges) :
    ∀ l : List Nat, (mergePass merges l).2 = false → (mergePass merges l).1 = l
  | [], _ => by simp [mergePass]
  | [t], _ => by simp [mergePass]
  | t1 :: t2 :: rest, h => by
    cases hm : lookupMerge merges (t1, t2) with
    | some nt => simp [mergePass, hm] at h
    | none =>
      simp [mergePass, hm] at h ⊢
      exact mergePass_false_eq merges (t2 :: rest) h

/-- The result of the pass loop is a genuine fixed point: one further pass
performs zero merges and leaves the tokens unchanged. -/
theorem mergePass_mergeLoop (merges : BpeMerges) (tokens : List Nat) :
    mergePass merges (mergeLoop merges tokens) = (mergeLoop merges tokens, false) := by
  rw [mergeLoop]
  split
  · exact mergePass_mergeLoop merges (mergePass merges tokens).1
  · rename_i h
    rw [Bool.not_eq_true] at h
    have heq := mergePass_false_eq merges tokens h
    calc mergePass merges (mergePass merges tokens).1
        = mergePass merges tokens := by rw [heq]
      _ = ((mergePass merges tokens).1, false) := by rw [← h]
termination_by tokens.length
decreasing_by exact mergePass_length_lt merges tokens (by assumption)

/-- A pass never maps a non-empty token vector to the empty vector. -/
theorem mergePass_ne_nil (merges : BpeMerges) :
    ∀ l : List Nat, l ≠ [] → (mergePass merges l).1 ≠ []
  | [], h => absurd rfl h
  | [t], _ => by simp [mergePass]
  | t1 :: t2 :: rest, _ => by
    cases hm : lookupMerge merges (t1, t2) <;> simp [mergePass, hm]

/-- The pass loop on a non-empty chunk performs at most `length` passes:
each merging pass strictly decreases the length and the final pass merges
nothing. -/
theorem passCount_le_length (merges : BpeMerges) (tokens : List Nat)
    (hne : tokens ≠ []) : passCount merges tokens ≤ tokens.length := by
  rw [passCount]
  split
  · rename_i h
    have hlt := mergePass_length_lt merges tokens h
    have hne2 := mergePass_ne_nil merges tokens hne
    have := passCount_le_length merges (mergePass merges tokens).1 hne2
    omega
  · cases tokens with
    | nil => exact absurd rfl hne
    | cons a l => simp
termination_by tokens.length
decreasing_by exact mergePass_length_lt merges tokens (by assumption)

/-- `u16::to_be_bytes`: serialize a token as 2 bytes, big-endian. -/
def toBeBytes (t : Nat) : List Nat := [t / 256 % 256, t % 256]

/-- `BpeStrategy::process_chunk` (`src/blt_core/src/tokenizer.rs` lines
56-93): empty chunks short-circuit to an empty output; otherwise each byte is
promoted to a 16-bit token, passes run to the fixed point, and every
remaining token is serialized as 2 big-endian bytes, concatenated in order.
The function only ever returns `Ok`, so it is embedded as a total function. -/
def bpeProcessChunk (merges : BpeMerges) (chunk : List Nat) : List Nat :=
  if chunk.isEmpty then []
  else ((mergeLoop merges chunk).map toBeBytes).flatten

/-- `PassthroughStrategy::process_chunk` (`src/blt_core/src/tokenizer.rs`
lines 136-145): `Ok(chunk_data.to_vec())`, a straight copy. -/
def passthroughProcessChunk (chunk : List Nat) : List Nat := chunk

/-! ### Chunk size planner (`src/blt_core/src/chunking.rs`) -/

def DEFAULT_MIN_CHUNK_SIZE_BYTES : Nat := 1024 * 1024
def DEFAULT_MAX_CHUNK_SIZE_BYTES : Nat := 16 * 1024 * 1024
def ABSOLUTE_MIN_CHUNK_SIZE : Nat := 256 * 1024
def ABSOLUTE_MAX_CHUNK_SIZE : Nat := 128 * 1024 * 1024

/-- Rust `Ord::clamp` on `usize` (defined for `lo ≤ hi`, which holds at every
call site in the planner). -/
def clampNat (x lo hi : Nat) : Nat := if x < lo then lo else if hi < x then hi else x

/-- The planner-relevant fields of `CoreConfig` (`src/blt_core/src/lib.rs`). -/
structure CoreConfig where
  cli_chunk_size : Option Nat
  num_threads : Nat
  mem_cap_percent : Nat

/-- `get_effective_chunk_size` (`src/blt_core/src/chunking.rs` lines 22-58).
The system-memory query `sys.total_memory()` is passed in as the parameter
`total_ram_bytes` (a failed query reports 0).  The `f64` computation
`(total_ram_bytes as f64 * (mem_cap_percent as f64 / 100.0)) as u64` is
modelled as exact rational scaling truncated toward zero,
`total_ram_bytes * mem_cap_percent / 100`. -/
def get_effective_chunk_size (config : CoreConfig) (total_ram_bytes : Nat) : Nat :=
  match config.cli_chunk_size with
  | some cli_size => clampNat cli_size ABSOLUTE_MIN_CHUNK_SIZE ABSOLUTE_MAX_CHUNK_SIZE
  | none =>
    let usable_ram_for_buffers := total_ram_bytes * config.mem_cap_percent / 100
    let ram_per_thread_budget := usable_ram_for_buffers / config.num_threads
    let calculated_chunk_size := ram_per_thread_budget / 4
    clampNat (clampNat calculated_chunk_size DEFAULT_MIN_CHUNK_SIZE_BYTES
        DEFAULT_MAX_CHUNK_SIZE_BYTES)
      ABSOLUTE_MIN_CHUNK_SIZE ABSOLUTE_MAX_CHUNK_SIZE

/-- The reference definition of the planner, written from the specification's
words (section 4.1): explicit size clamped into [256 KiB, 128 MiB]; otherwise
total memory times the memory-cap fraction, divided by worker count, divided
by 4, clamped first into [1 MiB, 16 MiB] and then into [256 KiB, 128 MiB]. -/
def specChunkSize (config : CoreConfig) (totalMemory : Nat) : Nat :=
  match config.cli_chunk_size with
  | some s => clampNat s (256 * 1024) (128 * 1024 * 1024)
  | none =>
    clampNat (clampNat (totalMemory * config.mem_cap_percent / 100 /
        config.num_threads / 4) (1024 * 1024) (16 * 1024 * 1024))
      (256 * 1024) (128 * 1024 * 1024)

theorem clampNat_le (x lo hi : Nat) (h : lo ≤ hi) : clampNat x lo hi ≤ hi := by
  unfold clampNat
  split
  · omega
  · split <;> omega

theorem le_clampNat (x lo hi : Nat) (h : lo ≤ hi) : lo ≤ clampNat x lo hi := by
  unfold clampNat
  split
  · omega
  · split <;> omega

/-! ### Content-type marker (`src/blt_core/src/lib.rs`) -/

/-- `enum ContentType { Text, Audio, Bin }` (`src/blt_core/src/lib.rs`
lines 12-17). -/
inductive ContentType where
  | text
  | audio
  | bin
deriving DecidableEq

/-- `ContentType::get_token_value` (`src/blt_core/src/lib.rs` lines 19-27). -/
def ContentType.get_token_value : ContentType → Nat
  | .text => 0xFF01
  | .audio => 0xFF02
  | .bin => 0xFF03

/-- `prepend_content_type_token` (`src/blt_core/src/lib.rs` lines 58-68): the
bytes written before any chunk output — the tag's token value as 2 big-endian
bytes when a tag is configured, nothing otherwise. -/
def markerBytes : Option ContentType → List Nat
  | some ct => toBeBytes ct.get_token_value
  | none => []

/-- The complete output stream of `run_tokenizer`: the content-type marker
(if any) followed by the pipeline's output bytes. -/
def fullOutput (ct : Option ContentType) (body : List Nat) : List Nat :=
  markerBytes ct ++ body

/-! ### Dispatch/reorder pipeline (`src/blt_core/src/pipeline.rs`)

The per-chunk result sent on the completion channel,
`(usize, io::Result<Vec<u8>>)`: either transformed bytes or an error (error
values abstracted as `Nat`). -/

/-- The payload of one completion-channel message. -/
def ChunkResult : Type := Except Nat (List Nat)

instance : DecidableEq ChunkResult := fun a b =>
  match a, b with
  | .ok x, .ok y => decidable_of_iff (x = y) (by constructor <;> (intro h; cases h <;> rfl))
  | .error x, .error y => decidable_of_iff (x = y) (by constructor <;> (intro h; cases h <;> rfl))
  | .ok _, .error _ => isFalse (by intro h; cases h)
  | .error _, .ok _ => isFalse (by intro h; cases h)

/-- The bytes of a successful result, `[]` for an error (used only to state
what was written for ids that were flushed, which are always successes). -/
def okData : ChunkResult → List Nat
  | .ok d => d
  | .error _ => []

/-- `HashMap::get`-style lookup in the reorder buffer. -/
def lookupResult {α : Type} : List (Nat × α) → Nat → Option α
  | [], _ => none
  | (k, r) :: rest, key => if k = key then some r else lookupResult rest key

/-- `HashMap::remove`: drop every entry with the given key. -/
def removeResult {α : Type} : List (Nat × α) → Nat → List (Nat × α)
  | [], _ => []
  | (k, r) :: rest, key =>
    if k = key then removeResult rest key else (k, r) :: removeResult rest key

/-- `HashMap::insert`: overwrite any entry with the given key. -/
def insertResult {α : Type} (buf : List (Nat × α)) (key : Nat) (r : α) :
    List (Nat × α) :=
  (key, r) :: removeResult buf key

/-- The orchestrator-local state of `run_stream_pipeline`
(`struct ProcessingContext`, `src/blt_core/src/pipeline.rs` lines 245-251),
plus the bytes accumulated in the output sink.  The in-flight task set and
the not-yet-dispatched input are abstracted into the arrival order over which
the run is quantified. -/
structure ProcessingContext where
  received_results : List (Nat × ChunkResult)
  current_expected_chunk_id : Nat
  output : List Nat
deriving DecidableEq

theorem lookupResult_insert_self {α : Type} (buf : List (Nat × α)) (key : Nat)
    (r : α) : lookupResult (insertResult buf key r) key = some r := by
  simp [insertResult, lookupResult]

theorem lookupResult_remove_self {α : Type} (buf : List (Nat × α)) (key : Nat) :
    lookupResult (removeResult buf key) key = none := by
  induction buf with
  | nil => simp [removeResult, lookupResult]
  | cons p rest ih =>
    obtain ⟨k, r⟩ := p
    by_cases h : k = key <;> simp [removeResult, lookupResult, h, ih]

theorem lookupResult_remove_ne {α : Type} (buf : List (Nat × α)) (key k : Nat)
    (h : k ≠ key) : lookupResult (removeResult buf key) k = lookupResult buf k := by
  induction buf with
  | nil => simp [removeResult]
  | cons p rest ih =>
    obtain ⟨k1, r⟩ := p
    by_cases h1 : k1 = key
    · have h3 : ¬ k1 = k := by omega
      rw [removeResult, if_pos h1, ih, lookupResult, if_neg h3]
    · by_cases h2 : k1 = k
      · rw [removeResult, if_neg h1, lookupResult, if_pos h2, lookupResult, if_pos h2]
      · rw [removeResult, if_neg h1, lookupResult, if_neg h2, ih, lookupResult,
          if_neg h2]

theorem lookupResult_insert_ne {α : Type} (buf : List (Nat × α)) (key k : Nat)
    (r : α) (h : k ≠ key) :
    lookupResult (insertResult buf key r) k = lookupResult buf k := by
  have : key ≠ k := by omega
  simp [insertResult, lookupResult, this, lookupResult_remove_ne buf key k h]

theorem mem_removeResult {α : Type} (buf : List (Nat × α)) (key : Nat)
    (p : Nat × α) (h : p ∈ removeResult buf key) : p ∈ buf ∧ p.1 ≠ key := by
  induction buf with
  | nil => simp [removeResult] at h
  | cons q rest ih =>
    obtain ⟨k1, r1⟩ := q
    by_cases h1 : k1 = key
    · simp only [removeResult, if_pos h1] at h
      have := ih h
      exact ⟨List.mem_cons_of_mem _ this.1, this.2⟩
    · simp only [removeResult, if_neg h1] at h
      rcases List.mem_cons.mp h with h2 | h2
      · subst h2
        exact ⟨List.mem_cons_self _ _, h1⟩
      · have := ih h2
        exact ⟨List.mem_cons_of_mem _ this.1, this.2⟩

theorem mem_of_lookupResult {α : Type} (buf : List (Nat × α)) (key : Nat)
    (r : α) (h : lookupResult buf key = some r) : (key, r) ∈ buf := by
  induction buf with
  | nil => simp [lookupResult] at h
  | cons q rest ih =>
    obtain ⟨k1, r1⟩ := q
    by_cases h1 : k1 = key
    · simp only [lookupResult, if_pos h1] at h
      cases h
      subst h1
      exact List.mem_cons_self _ _
    · simp only [lookupResult, if_neg h1] at h
      exact List.mem_cons_of_mem _ (ih h)

theorem removeResult_length_le {α : Type} (buf : List (Nat × α)) (key : Nat) :
    (removeResult buf key).length ≤ buf.length := by
  induction buf with
  | nil => simp [removeResult]
  | cons q rest ih =>
    obtain ⟨k1, r1⟩ := q
    by_cases h1 : k1 = key <;> simp [removeResult, h1] <;> omega

theorem removeResult_length_lt {α : Type} (buf : List (Nat × α)) (key : Nat)
    (r : α) (h : lookupResult buf key = some r) :
    (removeResult buf key).length < buf.length := by
  induction buf with
  | nil => simp [lookupResult] at h
  | cons q rest ih =>
    obtain ⟨k1, r1⟩ := q
    by_cases h1 : k1 = key
    · have := removeResult_length_le rest key
      simp [removeResult, h1]
      omega
    · simp only [lookupResult, if_neg h1] at h
      have := ih h
      simp [removeResult, h1]
      omega

/-- `write_ordered_results` (`src/blt_core/src/pipeline.rs` lines 391-419):
while the buffer holds the next expected chunk id, remove it; write its bytes
and advance the expected id on success, or abort the run returning the error.
`write_ordered_mmap_results` (lines 153-168) is the same loop verbatim.  The
returned `Option Nat` is the abort error, `none` when the flush completed. -/
def write_ordered_results (ctx : ProcessingContext) : ProcessingContext × Option Nat :=
  match h : lookupResult ctx.received_results ctx.current_expected_chunk_id with
  | none => (ctx, none)
  | some (Except.error e) =>
    ({ ctx with
        received_results :=
          removeResult ctx.received_results ctx.current_expected_chunk_id },
      some e)
  | some (Except.ok d) =>
    write_ordered_results
      { received_results :=
          removeResult ctx.received_results ctx.current_expected_chunk_id,
        current_expected_chunk_id := ctx.current_expected_chunk_id + 1,
        output := ctx.output ++ d }
termination_by ctx.received_results.length
decreasing_by
  exact removeResult_length_lt ctx.received_results ctx.current_expected_chunk_id _ h

/-- `process_received_results` (`src/blt_core/src/pipeline.rs` lines 370-388)
for an arrived message `(task_id, result)`: insert it into the reorder buffer
(the in-flight handle removal is implicit in our scheduling abstraction) and
flush with `write_ordered_results`. -/
def process_received_results (ctx : ProcessingContext) (task_id : Nat)
    (result : ChunkResult) : ProcessingContext × Option Nat :=
  write_ordered_results
    { ctx with received_results := insertResult ctx.received_results task_id result }

/-- The observable behaviour of `run_stream_pipeline` / `run_mmap_pipeline`
(`src/blt_core/src/pipeline.rs` lines 196-240 and 56-131) for a fixed arrival
order: every completion-channel message is handled in arrival order with
`process_received_results` (in the main loop or while draining in
`finalize_results`); the first flush that hits an error aborts the run. -/
def runPipeline (results : Nat → ChunkResult) :
    List Nat → ProcessingContext → ProcessingContext × Option Nat
  | [], ctx => (ctx, none)
  | id :: rest, ctx =>
    match process_received_results ctx id (results id) with
    | (ctx2, none) => runPipeline results rest ctx2
    | (ctx2, some e) => (ctx2, some e)

/-- The pipeline state at the start of a run. -/
def initContext : ProcessingContext :=
  { received_results := [], current_expected_chunk_id := 0, output := [] }

/-- A complete pipeline run from the initial state. -/
def pipelineRun (results : Nat → ChunkResult) (order : List Nat) :
    ProcessingContext × Option Nat :=
  runPipeline results order initContext

/-- The per-chunk results produced by the worker tasks: chunk id `i` is
processed by the strategy `f` on the `i`-th chunk. -/
def chunkResults (f : List Nat → List Nat) (chunks : List (List Nat)) :
    Nat → ChunkResult :=
  fun i => Except.ok (f (chunks.getD i []))

/-- The chunk partition of the mmap path (`run_mmap_pipeline`,
`src/blt_core/src/pipeline.rs` lines 73-81): `mmap.chunks(effective_chunk_size)`,
slices of `size` bytes with a shorter final slice.  `size = 0` cannot occur
(the planner never returns 0; Rust `chunks(0)` panics). -/
def chunksOfSize (size : Nat) : List Nat → List (List Nat)
  | [] => []
  | x :: xs =>
    if size = 0 then []
    else (x :: xs).take size :: chunksOfSize size ((x :: xs).drop size)
termination_by data => data.length
decreasing_by simp; omega

/-- Output bytes of the mmap (seekable file) path for one arrival order. -/
def mmapPipelineOutput (f : List Nat → List Nat) (data : List Nat) (size : Nat)
    (order : List Nat) : List Nat :=
  (pipelineRun (chunkResults f (chunksOfSize size data)) order).1.output

/-- Output bytes of the streaming (non-seekable) path for one arrival order:
the successive reads are the chunks (`try_read_and_spawn_task`,
`src/blt_core/src/pipeline.rs` lines 303-331, takes whatever one `read`
returns as the next chunk). -/
def streamPipelineOutput (f : List Nat → List Nat) (reads : List (List Nat))
    (order : List Nat) : List Nat :=
  (pipelineRun (chunkResults f reads) order).1.output

/-- Whether `reads` is an admissible sequence of streaming reads for input
`data` with the given chunk size: each read before end of input returns
between 1 and `size` bytes, and the reads concatenate to the input. -/
def streamReadsValid (size : Nat) (data : List Nat) (reads : List (List Nat)) :
    Bool :=
  reads.all (fun r => !r.isEmpty && decide (r.length ≤ size)) &&
    decide (reads.flatten = data)

/-- What holds when the pipeline aborts: the next expected id holds an error
result, that id has arrived, every id below it was a success, and the sink
holds exactly the flushed chunks' bytes in id order. -/
def AbortSpec (results : Nat → ChunkResult) (A : Nat → Prop)
    (ctx : ProcessingContext) (e : Nat) : Prop :=
  results ctx.current_expected_chunk_id = Except.error e ∧
  A ctx.current_expected_chunk_id ∧
  (∀ j, j < ctx.current_expected_chunk_id → ∃ d, results j = Except.ok d) ∧
  ctx.output =
    ((List.range ctx.current_expected_chunk_id).map
      (fun j => okData (results j))).flatten

/-- The reorder-buffer invariant immediately after inserting a fresh arrival,
before the flush: `A` is the set of arrived chunk ids; every id below the
expected id has arrived, was a success and has been written in order; the
buffer holds exactly the arrived ids at or above the expected id, each with
its own result. -/
structure PipePre (results : Nat → ChunkResult) (A : Nat → Prop)
    (ctx : ProcessingContext) : Prop where
  arrived_lt : ∀ k, k < ctx.current_expected_chunk_id → A k
  flushed_ok : ∀ j, j < ctx.current_expected_chunk_id → ∃ d, results j = Except.ok d
  buf_mem : ∀ p, p ∈ ctx.received_results →
    A p.1 ∧ ctx.current_expected_chunk_id ≤ p.1 ∧ p.2 = results p.1
  mem_buf : ∀ k, A k → ctx.current_expected_chunk_id ≤ k →
    lookupResult ctx.received_results k = some (results k)
  output_eq : ctx.output =
    ((List.range ctx.current_expected_chunk_id).map
      (fun j => okData (results j))).flatten

/-- The reorder-buffer invariant between loop iterations (after a completed
flush): as `PipePre`, but the buffer holds only ids strictly greater than the
expected id, and the expected id has not arrived. -/
structure PipeInv (results : Nat → ChunkResult) (A : Nat → Prop)
    (ctx : ProcessingContext) : Prop where
  arrived_lt : ∀ k, k < ctx.current_expected_chunk_id → A k
  flushed_ok : ∀ j, j < ctx.current_expected_chunk_id → ∃ d, results j = Except.ok d
  buf_mem : ∀ p, p ∈ ctx.received_results →
    A p.1 ∧ ctx.current_expected_chunk_id < p.1 ∧ p.2 = results p.1
  mem_buf : ∀ k, A k → ctx.current_expected_chunk_id < k →
    lookupResult ctx.received_results k = some (results k)
  not_arrived : ¬ A ctx.current_expected_chunk_id
  output_eq : ctx.output =
    ((List.range ctx.current_expected_chunk_id).map
      (fun j => okData (results j))).flatten

theorem PipeInv_congr (results : Nat → ChunkResult) (A A2 : Nat → Prop)
    (hA : ∀ k, A k ↔ A2 k) (ctx : ProcessingContext)
    (h : PipeInv results A ctx) : PipeInv results A2 ctx where
  arrived_lt k hk := (hA k).mp (h.arrived_lt k hk)
  flushed_ok := h.flushed_ok
  buf_mem p hp :=
    ⟨(hA p.1).mp (h.buf_mem p hp).1, (h.buf_mem p hp).2.1, (h.buf_mem p hp).2.2⟩
  mem_buf k hk hlt := h.mem_buf k ((hA k).mpr hk) hlt
  not_arrived hk := h.not_arrived ((hA _).mpr hk)
  output_eq := h.output_eq

theorem AbortSpec_mono (results : Nat → ChunkResult) (A A2 : Nat → Prop)
    (hA : ∀ k, A k → A2 k) (ctx : ProcessingContext) (e : Nat)
    (h : AbortSpec results A ctx e) : AbortSpec results A2 ctx e :=
  ⟨h.1, hA _ h.2.1, h.2.2.1, h.2.2.2⟩

/-- The flush loop, started from the post-insert invariant, either terminates
normally re-establishing the between-iterations invariant, or aborts with the
error of the first expected id whose result failed. -/
theorem write_ordered_results_spec (results : Nat → ChunkResult) (A : Nat → Prop)
    (ctx : ProcessingContext) (hpre : PipePre results A ctx) :
    (∃ ctx2, write_ordered_results ctx = (ctx2, none) ∧ PipeInv results A ctx2) ∨
    (∃ ctx2 e, write_ordered_results ctx = (ctx2, some e) ∧
      AbortSpec results A ctx2 e) := by
  rw [write_ordered_results]
  split
  · rename_i heq
    refine Or.inl ⟨ctx, rfl, ?_⟩
    have hnotA : ¬ A ctx.current_expected_chunk_id := by
      intro hA
      rw [hpre.mem_buf _ hA (le_refl _)] at heq
      cases heq
    exact
      { arrived_lt := hpre.arrived_lt
        flushed_ok := hpre.flushed_ok
        buf_mem := by
          intro p hp
          obtain ⟨h1, h2, h3⟩ := hpre.buf_mem p hp
          refine ⟨h1, ?_, h3⟩
          rcases Nat.lt_or_ge ctx.current_expected_chunk_id p.1 with h4 | h4
          · exact h4
          · exfalso
            have hpe : p.1 = ctx.current_expected_chunk_id := by omega
            have hlk := hpre.mem_buf p.1 h1 (by omega)
            rw [hpe, heq] at hlk
            cases hlk
        mem_buf := fun k hk hlt => hpre.mem_buf k hk (Nat.le_of_lt hlt)
        not_arrived := hnotA
        output_eq := hpre.output_eq }
  · rename_i e heq
    refine Or.inr ⟨_, e, rfl, ?_⟩
    have hmem := mem_of_lookupResult _ _ _ heq
    obtain ⟨hA, _, hres⟩ := hpre.buf_mem _ hmem
    exact ⟨hres.symm, hA, hpre.flushed_ok, hpre.output_eq⟩
  · rename_i d heq
    have hmem := mem_of_lookupResult _ _ _ heq
    obtain ⟨hA, _, hres⟩ := hpre.buf_mem _ hmem
    have hpre2 : PipePre results A
        { received_results :=
            removeResult ctx.received_results ctx.current_expected_chunk_id,
          current_expected_chunk_id := ctx.current_expected_chunk_id + 1,
          output := ctx.output ++ d } :=
      { arrived_lt := by
          intro k hk
          rcases Nat.lt_or_ge k ctx.current_expected_chunk_id with h1 | h1
          · exact hpre.arrived_lt k h1
          · have : k = ctx.current_expected_chunk_id := by
              simp only at hk
              omega
            rw [this]
            exact hA
        flushed_ok := by
          intro j hj
          rcases Nat.lt_or_ge j ctx.current_expected_chunk_id with h1 | h1
          · exact hpre.flushed_ok j h1
          · have : j = ctx.current_expected_chunk_id := by
              simp only at hj
              omega
            rw [this]
            exact ⟨d, hres.symm⟩
        buf_mem := by
          intro p hp
          simp only at hp
          obtain ⟨hp1, hp2⟩ := mem_removeResult _ _ _ hp
          obtain ⟨h1, h2, h3⟩ := hpre.buf_mem p hp1
          exact ⟨h1, by simp only; omega, h3⟩
        mem_buf := by
          intro k hk hle
          simp only at hle ⊢
          have hne : k ≠ ctx.current_expected_chunk_id := by omega
          rw [lookupResult_remove_ne _ _ _ hne]
          exact hpre.mem_buf k hk (by omega)
        output_eq := by
          simp only
          rw [hpre.output_eq, List.range_succ, List.map_append, List.flatten_append]
          simp [okData, ← hres] }
    have := write_ordered_results_spec results A _ hpre2
    exact this
termination_by ctx.received_results.length
decreasing_by
  exact removeResult_length_lt ctx.received_results ctx.current_expected_chunk_id _
    (by assumption)

/-- Inserting a fresh arrival `id` into a state satisfying the
between-iterations invariant yields the pre-flush invariant for the enlarged
arrival set. -/
theorem insertResult_pre (results : Nat → ChunkResult) (A : Nat → Prop)
    (ctx : ProcessingContext) (hinv : PipeInv results A ctx) (id : Nat)
    (hid : ¬ A id) :
    PipePre results (fun k => k = id ∨ A k)
      { ctx with
        received_results := insertResult ctx.received_results id (results id) } where
  arrived_lt k hk := Or.inr (hinv.arrived_lt k hk)
  flushed_ok := hinv.flushed_ok
  buf_mem := by
    intro p hp
    simp only [insertResult] at hp
    rcases List.mem_cons.mp hp with h1 | h1
    · rw [h1]
      refine ⟨Or.inl rfl, ?_, rfl⟩
      simp only
      rcases Nat.lt_or_ge id ctx.current_expected_chunk_id with h2 | h2
      · exact absurd (hinv.arrived_lt id h2) hid
      · omega
    · obtain ⟨h2, h3⟩ := mem_removeResult _ _ _ h1
      obtain ⟨h4, h5, h6⟩ := hinv.buf_mem p h2
      exact ⟨Or.inr h4, by simp only; omega, h6⟩
  mem_buf := by
    intro k hk hle
    simp only at hle ⊢
    rcases hk with h1 | h1
    · rw [h1]
      exact lookupResult_insert_self _ _ _
    · have hne : k ≠ id := by
        intro h
        rw [h] at h1
        exact hid h1
      rw [lookupResult_insert_ne _ _ _ _ hne]
      have hlt : ctx.current_expected_chunk_id < k := by
        rcases Nat.lt_or_ge ctx.current_expected_chunk_id k with h2 | h2
        · exact h2
        · have : k = ctx.current_expected_chunk_id := by omega
          rw [this] at h1
          exact absurd h1 hinv.not_arrived
      exact hinv.mem_buf k h1 hlt
  output_eq := hinv.output_eq

/-- Processing a sequence of distinct, fresh arrivals either keeps the
invariant (for the arrival set enlarged by the whole sequence) or aborts with
the characterization `AbortSpec`. -/
theorem runPipeline_spec (results : Nat → ChunkResult) (order : List Nat) :
    ∀ (A : Nat → Prop) (ctx : ProcessingContext), PipeInv results A ctx →
      order.Nodup → (∀ id ∈ order, ¬ A id) →
      (∃ ctx2, runPipeline results order ctx = (ctx2, none) ∧
        PipeInv results (fun k => k ∈ order ∨ A k) ctx2) ∨
      (∃ ctx2 e, runPipeline results order ctx = (ctx2, some e) ∧
        AbortSpec results (fun k => k ∈ order ∨ A k) ctx2 e) := by
  induction order with
  | nil =>
    intro A ctx hinv _ _
    refine Or.inl ⟨ctx, rfl, PipeInv_congr results A _ ?_ ctx hinv⟩
    intro k
    simp
  | cons id rest ih =>
    intro A ctx hinv hnd hfresh
    have hid : ¬ A id := hfresh id (List.mem_cons_self _ _)
    have hpre := insertResult_pre results A ctx hinv id hid
    have hnotin : id ∉ rest := (List.nodup_cons.mp hnd).1
    have hndrest : rest.Nodup := (List.nodup_cons.mp hnd).2
    rcases write_ordered_results_spec results _ _ hpre with
      ⟨ctx2, heq, hinv2⟩ | ⟨ctx2, e, heq, habort⟩
    · have hfresh2 : ∀ i ∈ rest, ¬ (i = id ∨ A i) := by
        intro i hi h
        rcases h with h | h
        · rw [h] at hi
          exact hnotin hi
        · exact hfresh i (List.mem_cons_of_mem _ hi) h
      rcases ih _ ctx2 hinv2 hndrest hfresh2 with
        ⟨ctx3, heq3, hinv3⟩ | ⟨ctx3, e3, heq3, habort3⟩
      · refine Or.inl ⟨ctx3, ?_, ?_⟩
        · rw [runPipeline]
          simp only [process_received_results] at heq ⊢
          rw [heq]
          exact heq3
        · refine PipeInv_congr results _ _ ?_ ctx3 hinv3
          intro k
          simp only [List.mem_cons]
          tauto
      · refine Or.inr ⟨ctx3, e3, ?_, ?_⟩
        · rw [runPipeline]
          simp only [process_received_results] at heq ⊢
          rw [heq]
          exact heq3
        · refine AbortSpec_mono results _ _ ?_ ctx3 e3 habort3
          intro k
          simp only [List.mem_cons]
          tauto
    · refine Or.inr ⟨ctx2, e, ?_, ?_⟩
      · rw [runPipeline]
        simp only [process_received_results] at heq ⊢
        rw [heq]
      · refine AbortSpec_mono results _ _ ?_ ctx2 e habort
        intro k
        simp only [List.mem_cons]
        tauto

/-- The initial state satisfies the invariant for the empty arrival set. -/
theorem initContext_inv (results : Nat → ChunkResult) :
    PipeInv results (fun _ => False) initContext where
  arrived_lt k hk := by simp [initContext] at hk
  flushed_ok j hj := by simp [initContext] at hj
  buf_mem p hp := by simp [initContext] at hp
  mem_buf k hk := absurd hk id
  not_arrived := id
  output_eq := by simp [initContext]

/-- A complete run over all chunk ids `0..n-1`, in any arrival order, with
every result a success: the write never aborts, the expected id ends at `n`,
and the sink holds the concatenation of the per-chunk bytes in id order. -/
theorem pipelineRun_ok (results : Nat → ChunkResult) (dataOf : Nat → List Nat)
    (n : Nat) (order : List Nat) (hperm : order.Perm (List.range n))
    (hok : ∀ i, i < n → results i = Except.ok (dataOf i)) :
    (pipelineRun results order).2 = none ∧
    (pipelineRun results order).1.current_expected_chunk_id = n ∧
    (pipelineRun results order).1.output = ((List.range n).map dataOf).flatten := by
  have hnd : order.Nodup := hperm.symm.nodup (List.nodup_range n)
  have hAiff : ∀ k, (k ∈ order ∨ False) ↔ k < n := by
    intro k
    rw [hperm.mem_iff, List.mem_range]
    tauto
  rcases runPipeline_spec results order (fun _ => False) initContext
      (initContext_inv results) hnd (fun _ _ => id) with
    ⟨ctx2, heq, hinv⟩ | ⟨ctx2, e, heq, habort⟩
  · have hne : ctx2.current_expected_chunk_id = n := by
      have h1 : ¬ ctx2.current_expected_chunk_id < n := by
        intro h
        exact hinv.not_arrived ((hAiff _).mpr h)
      have h2 : ¬ n < ctx2.current_expected_chunk_id := by
        intro h
        have := (hAiff n).mp (hinv.arrived_lt n h)
        omega
      omega
    have hout : ctx2.output = ((List.range n).map dataOf).flatten := by
      rw [hinv.output_eq, hne]
      congr 1
      refine List.map_congr_left ?_
      intro j hj
      rw [List.mem_range] at hj
      rw [hok j hj]
      rfl
    simp [pipelineRun, heq, hne, hout]
  · exfalso
    have hlt : ctx2.current_expected_chunk_id < n := (hAiff _).mp habort.2.1
    have := hok _ hlt
    rw [habort.1] at this
    cases this

/-- A complete run over all chunk ids `0..n-1` where chunk `k` failed with
error `e` and every earlier chunk succeeded: whatever the arrival order, the
run aborts returning `e`, having written exactly chunks `0..k-1` in order. -/
theorem pipelineRun_error (results : Nat → ChunkResult) (dataOf : Nat → List Nat)
    (n k e : Nat) (order : List Nat) (hperm : order.Perm (List.range n))
    (hk : k < n) (herr : results k = Except.error e)
    (hok : ∀ j, j < k → results j = Except.ok (dataOf j)) :
    (pipelineRun results order).2 = some e ∧
    (pipelineRun results order).1.current_expected_chunk_id = k ∧
    (pipelineRun results order).1.output = ((List.range k).map dataOf).flatten := by
  have hnd : order.Nodup := hperm.symm.nodup (List.nodup_range n)
  have hAiff : ∀ j, (j ∈ order ∨ False) ↔ j < n := by
    intro j
    rw [hperm.mem_iff, List.mem_range]
    tauto
  rcases runPipeline_spec results order (fun _ => False) initContext
      (initContext_inv results) hnd (fun _ _ => id) with
    ⟨ctx2, heq, hinv⟩ | ⟨ctx2, e2, heq, habort⟩
  · exfalso
    have hne : k < ctx2.current_expected_chunk_id := by
      by_contra h
      push_neg at h
      have h1 : ¬ ctx2.current_expected_chunk_id < n := by
        intro h2
        exact hinv.not_arrived ((hAiff _).mpr h2)
      omega
    obtain ⟨d, hd⟩ := hinv.flushed_ok k hne
    rw [herr] at hd
    cases hd
  · have hm : ctx2.current_expected_chunk_id = k := by
      rcases Nat.lt_trichotomy ctx2.current_expected_chunk_id k with h1 | h1 | h1
      · exfalso
        have := hok _ h1
        rw [habort.1] at this
        cases this
      · exact h1
      · exfalso
        obtain ⟨d, hd⟩ := habort.2.2.1 k h1
        rw [herr] at hd
        cases hd
    have he : e2 = e := by
      have := habort.1
      rw [hm, herr] at this
      cases this
      rfl
    have hout : ctx2.output = ((List.range k).map dataOf).flatten := by
      rw [habort.2.2.2, hm]
      congr 1
      refine List.map_congr_left ?_
      intro j hj
      rw [List.mem_range] at hj
      rw [hok j hj]
      rfl
    simp [pipelineRun, heq, hm, he, hout]

theorem map_getD_range {α β : Type} (g : α → β) (d : α) :
    ∀ l : List α, (List.range l.length).map (fun i => g (l.getD i d)) = l.map g := by
  intro l
  induction l with
  | nil => simp
  | cons a t ih =>
    rw [List.length_cons, List.range_succ_eq_map, List.map_cons, List.map_map]
    rw [List.map_cons]
    rw [← ih]
    simp [Function.comp]

/-- A run over the per-chunk strategy results of a chunk list, for any
arrival order covering all chunk ids: no abort, and the sink holds the
concatenation of the transformed chunks in id order. -/
theorem pipelineRun_chunks_output (f : List Nat → List Nat)
    (chunks : List (List Nat)) (order : List Nat)
    (hperm : order.Perm (List.range chunks.length)) :
    (pipelineRun (chunkResults f chunks) order).2 = none ∧
    (pipelineRun (chunkResults f chunks) order).1.current_expected_chunk_id =
      chunks.length ∧
    (pipelineRun (chunkResults f chunks) order).1.output = (chunks.map f).flatten := by
  have h := pipelineRun_ok (chunkResults f chunks)
    (fun i => f (chunks.getD i [])) chunks.length order hperm
    (fun i _ => rfl)
  refine ⟨h.1, h.2.1, ?_⟩
  rw [h.2.2, map_getD_range]

/-! ### Claim theorems -/

/-- Claim C1: for every chunk partition, every strategy, and every order in
which per-chunk results arrive on the completion channel (every schedule of
the workers delivers each chunk id exactly once, so arrival orders are the
permutations of the chunk ids), the pipeline never aborts and writes to the
sink exactly the concatenation, in increasing chunk id with no gaps and no
duplicates, of the strategy's output for each chunk — byte-identical to the
strictly sequential in-order (worker count 1) run. -/
theorem claim_C1_order_preservation (f : List Nat → List Nat)
    (chunks : List (List Nat)) (order : List Nat)
    (hperm : order.Perm (List.range chunks.length)) :
    (pipelineRun (chunkResults f chunks) order).2 = none ∧
    (pipelineRun (chunkResults f chunks) order).1.output = (chunks.map f).flatten ∧
    (pipelineRun (chunkResults f chunks) order).1.output =
      (pipelineRun (chunkResults f chunks) (List.range chunks.length)).1.output := by
  have h1 := pipelineRun_chunks_output f chunks order hperm
  have h2 := pipelineRun_chunks_output f chunks (List.range chunks.length)
    (List.Perm.refl _)
  exact ⟨h1.1, h1.2.2, by rw [h1.2.2, h2.2.2]⟩

theorem claim_C1_witness :
    (pipelineRun (chunkResults (fun l => l) [[1],[2,3]]) [1,0]).2 = none ∧
    (pipelineRun (chunkResults (fun l => l) [[1],[2,3]]) [1,0]).1.output =
      (([[1],[2,3]] : List (List Nat)).map (fun l => l)).flatten ∧
    (pipelineRun (chunkResults (fun l => l) [[1],[2,3]]) [1,0]).1.output =
      (pipelineRun (chunkResults (fun l => l) [[1],[2,3]])
        (List.range ([[1],[2,3]] : List (List Nat)).length)).1.output :=
  claim_C1_order_preservation (fun l => l) [[1],[2,3]] [1,0] (by decide)

/-- Claim C2: BpeStrategy::process_chunk computes the fixed point of repeated
left-to-right greedy non-overlapping merge passes (one further pass on the
loop's result performs zero merges and leaves it unchanged), and on input
"abcde" with table {(97,98)→256, (256,99)→257}: pass 1 gives [256,99,100,101]
having merged, pass 2 gives [257,100,101] having merged, pass 3 finds no
merges, so the output tokens are [257,100,101]. -/
theorem claim_C2_bpe_fixed_point :
    (∀ (merges : BpeMerges) (tokens : List Nat),
      mergePass merges (mergeLoop merges tokens) = (mergeLoop merges tokens, false)) ∧
    mergePass [((97,98),256),((256,99),257)] [97,98,99,100,101] =
      ([256,99,100,101], true) ∧
    mergePass [((97,98),256),((256,99),257)] [256,99,100,101] =
      ([257,100,101], true) ∧
    mergePass [((97,98),256),((256,99),257)] [257,100,101] =
      ([257,100,101], false) ∧
    mergeLoop [((97,98),256),((256,99),257)] [97,98,99,100,101] = [257,100,101] ∧
    bpeProcessChunk [((97,98),256),((256,99),257)] [97,98,99,100,101] =
      [1,1,0,100,0,101] := by
  refine ⟨mergePass_mergeLoop, by decide, by decide, by decide, ?_, ?_⟩
  · simp [mergeLoop, mergePass, lookupMerge]
  · simp [bpeProcessChunk, mergeLoop, mergePass, lookupMerge, toBeBytes]

/-- Claim C3: when the ordered flush reaches the next expected chunk id and
that chunk's pending result is an error, the run aborts returning that error,
whatever the arrival order; every chunk with a smaller id has already been
written in full, and no bytes of the failed chunk or of any later chunk are
written even if later chunks completed successfully. -/
theorem claim_C3_error_abort (results : Nat → ChunkResult)
    (dataOf : Nat → List Nat) (n k e : Nat) (order : List Nat)
    (hperm : order.Perm (List.range n)) (hk : k < n)
    (herr : results k = Except.error e)
    (hok : ∀ j, j < k → results j = Except.ok (dataOf j)) :
    (pipelineRun results order).2 = some e ∧
    (pipelineRun results order).1.current_expected_chunk_id = k ∧
    (pipelineRun results order).1.output = ((List.range k).map dataOf).flatten :=
  pipelineRun_error results dataOf n k e order hperm hk herr hok

theorem claim_C3_witness :
    (pipelineRun (fun i => if i = 1 then Except.error 5 else Except.ok [i])
      [2,1,0]).2 = some 5 ∧
    (pipelineRun (fun i => if i = 1 then Except.error 5 else Except.ok [i])
      [2,1,0]).1.current_expected_chunk_id = 1 ∧
    (pipelineRun (fun i => if i = 1 then Except.error 5 else Except.ok [i])
      [2,1,0]).1.output = ((List.range 1).map (fun i => [i])).flatten :=
  claim_C3_error_abort
    (fun i => if i = 1 then Except.error 5 else Except.ok [i])
    (fun i => [i]) 3 1 5 [2,1,0] (by decide) (by decide) (by decide)
    (fun j hj => by
      have hj0 : j = 0 := by omega
      subst hj0
      rfl)

/-- Claim C4 is false on the code: with merge table {(97,98)→256}, chunk size
2 and input bytes "ab", the mapped path carves the single chunk [97,98]
(slicing [i·chunkSize, min((i+1)·chunkSize, len))) and outputs [0x01,0x00],
while an admissible streaming run — one read returning 1 byte, then another
returning 1 byte, both allowed by the streaming contract — carves chunks [97]
and [98] and outputs [0x00,0x61,0x00,0x62].  Identical configuration, same
bytes, different output. -/
theorem claim_C4_counterexample :
    streamReadsValid 2 [97, 98] [[97], [98]] = true ∧
    mmapPipelineOutput (bpeProcessChunk [((97, 98), 256)]) [97, 98] 2 [0] ≠
      streamPipelineOutput (bpeProcessChunk [((97, 98), 256)]) [[97], [98]] [0, 1] := by
  constructor
  · decide
  · simp [mmapPipelineOutput, streamPipelineOutput, pipelineRun, runPipeline,
      process_received_results, write_ordered_results, insertResult, removeResult,
      lookupResult, initContext, chunksOfSize, chunkResults, bpeProcessChunk,
      mergeLoop, mergePass, lookupMerge, toBeBytes]

/-- Claim C4 amended: the mapped and streaming paths produce byte-identical
output, for any strategy and any completion orders on either side, provided
every streaming read before end of input returns exactly `chunkSize` bytes —
i.e. the streaming chunk boundaries coincide with the mapped slicing.  (When
a short read makes the boundaries differ, outputs can differ for the
byte-pair-merge strategy, as the counterexample shows.) -/
theorem claim_C4_amended (f : List Nat → List Nat) (data : List Nat) (size : Nat)
    (reads : List (List Nat)) (order1 order2 : List Nat)
    (hreads : reads = chunksOfSize size data)
    (h1 : order1.Perm (List.range reads.length))
    (h2 : order2.Perm (List.range reads.length)) :
    mmapPipelineOutput f data size order1 = streamPipelineOutput f reads order2 := by
  subst hreads
  have ha := pipelineRun_chunks_output f (chunksOfSize size data) order1 h1
  have hb := pipelineRun_chunks_output f (chunksOfSize size data) order2 h2
  unfold mmapPipelineOutput streamPipelineOutput
  rw [ha.2.2, hb.2.2]

theorem claim_C4_amended_witness :
    mmapPipelineOutput (fun l => l) [1,2,3] 2 [1,0] =
      streamPipelineOutput (fun l => l) [[1,2],[3]] [0,1] :=
  claim_C4_amended (fun l => l) [1,2,3] 2 [[1,2],[3]] [1,0] [0,1]
    (by simp [chunksOfSize]) (by decide) (by decide)

/-- Claim C5: between pipeline loop iterations — after any sequence of
distinct arrivals has been processed without aborting — every chunk id
strictly below the next expected id has been written to the sink in order
(and was a success), and the reorder buffer holds neither the expected id nor
any smaller id: every buffered result's id is strictly greater than the
expected id. -/
theorem claim_C5_reorder_invariant (results : Nat → ChunkResult)
    (order : List Nat) (ctx : ProcessingContext) (hnd : order.Nodup)
    (hrun : runPipeline results order initContext = (ctx, none)) :
    (∀ p, p ∈ ctx.received_results → ctx.current_expected_chunk_id < p.1) ∧
    lookupResult ctx.received_results ctx.current_expected_chunk_id = none ∧
    ctx.output = ((List.range ctx.current_expected_chunk_id).map
      (fun j => okData (results j))).flatten ∧
    (∀ j, j < ctx.current_expected_chunk_id → ∃ d, results j = Except.ok d) := by
  rcases runPipeline_spec results order (fun _ => False) initContext
      (initContext_inv results) hnd (fun _ _ => id) with
    ⟨ctx2, heq, hinv⟩ | ⟨ctx2, e, heq, _⟩
  · rw [heq] at hrun
    injection hrun with hc _
    subst hc
    refine ⟨?_, ?_, hinv.output_eq, hinv.flushed_ok⟩
    · intro p hp
      exact (hinv.buf_mem p hp).2.1
    · cases h2 : lookupResult ctx2.received_results ctx2.current_expected_chunk_id with
      | none => rfl
      | some r =>
        have hmem := mem_of_lookupResult _ _ _ h2
        have hlt := (hinv.buf_mem _ hmem).2.1
        simp only at hlt
        omega
  · rw [heq] at hrun
    injection hrun with _ hc
    cases hc

theorem claim_C5_witness :
    (∀ p, p ∈ (⟨[], 3, [0,1,2]⟩ : ProcessingContext).received_results →
      (⟨[], 3, [0,1,2]⟩ : ProcessingContext).current_expected_chunk_id < p.1) ∧
    lookupResult (⟨[], 3, [0,1,2]⟩ : ProcessingContext).received_results
      (⟨[], 3, [0,1,2]⟩ : ProcessingContext).current_expected_chunk_id = none ∧
    (⟨[], 3, [0,1,2]⟩ : ProcessingContext).output =
      ((List.range
        (⟨[], 3, [0,1,2]⟩ : ProcessingContext).current_expected_chunk_id).map
        (fun j => okData ((fun i => (Except.ok [i] : ChunkResult)) j))).flatten ∧
    (∀ j, j < (⟨[], 3, [0,1,2]⟩ : ProcessingContext).current_expected_chunk_id →
      ∃ d, (fun i => (Except.ok [i] : ChunkResult)) j = Except.ok d) :=
  claim_C5_reorder_invariant (fun i => (Except.ok [i] : ChunkResult)) [1,0,2]
    ⟨[], 3, [0,1,2]⟩ (by decide)
    (by simp [runPipeline, process_received_results, write_ordered_results,
      insertResult, removeResult, lookupResult, initContext])

/-- Claim C6: get_effective_chunk_size equals the specification's reference
definition — an explicit chunk size is clamped into [256 KiB, 128 MiB];
otherwise (totalMemory × memCapPercent/100) / workerCount / 4 is clamped
first into [1 MiB, 16 MiB] and then into [256 KiB, 128 MiB] — so it never
returns 0 or a value outside [256 KiB, 128 MiB], and a failed system-memory
query (zero total memory) yields the 1 MiB default floor. -/
theorem claim_C6_chunk_size_planner (config : CoreConfig) (total_ram_bytes : Nat)
    (hthreads : 1 ≤ config.num_threads) :
    get_effective_chunk_size config total_ram_bytes =
      specChunkSize config total_ram_bytes ∧
    0 < get_effective_chunk_size config total_ram_bytes ∧
    ABSOLUTE_MIN_CHUNK_SIZE ≤ get_effective_chunk_size config total_ram_bytes ∧
    get_effective_chunk_size config total_ram_bytes ≤ ABSOLUTE_MAX_CHUNK_SIZE ∧
    (config.cli_chunk_size = none → total_ram_bytes = 0 →
      get_effective_chunk_size config total_ram_bytes =
        DEFAULT_MIN_CHUNK_SIZE_BYTES) := by
  have hbounds : ABSOLUTE_MIN_CHUNK_SIZE ≤ get_effective_chunk_size config
      total_ram_bytes ∧
      get_effective_chunk_size config total_ram_bytes ≤ ABSOLUTE_MAX_CHUNK_SIZE := by
    unfold get_effective_chunk_size
    split
    · exact ⟨le_clampNat _ _ _ (by decide), clampNat_le _ _ _ (by decide)⟩
    · exact ⟨le_clampNat _ _ _ (by decide), clampNat_le _ _ _ (by decide)⟩
  refine ⟨rfl, ?_, hbounds.1, hbounds.2, ?_⟩
  · have := hbounds.1
    unfold ABSOLUTE_MIN_CHUNK_SIZE at this
    omega
  · intro hc ht
    subst ht
    unfold get_effective_chunk_size
    rw [hc]
    norm_num [clampNat, DEFAULT_MIN_CHUNK_SIZE_BYTES, DEFAULT_MAX_CHUNK_SIZE_BYTES,
      ABSOLUTE_MIN_CHUNK_SIZE, ABSOLUTE_MAX_CHUNK_SIZE]

theorem claim_C6_witness :
    get_effective_chunk_size (⟨none, 4, 80⟩ : CoreConfig) 0 =
      specChunkSize (⟨none, 4, 80⟩ : CoreConfig) 0 ∧
    0 < get_effective_chunk_size (⟨none, 4, 80⟩ : CoreConfig) 0 ∧
    ABSOLUTE_MIN_CHUNK_SIZE ≤
      get_effective_chunk_size (⟨none, 4, 80⟩ : CoreConfig) 0 ∧
    get_effective_chunk_size (⟨none, 4, 80⟩ : CoreConfig) 0 ≤
      ABSOLUTE_MAX_CHUNK_SIZE ∧
    ((⟨none, 4, 80⟩ : CoreConfig).cli_chunk_size = none → (0 : Nat) = 0 →
      get_effective_chunk_size (⟨none, 4, 80⟩ : CoreConfig) 0 =
        DEFAULT_MIN_CHUNK_SIZE_BYTES) :=
  claim_C6_chunk_size_planner ⟨none, 4, 80⟩ 0 (by decide)

/-- Claim C7: when a content-type tag is configured the very first bytes of
the output are the tag's fixed 2-byte big-endian marker — text = 0xFF01,
audio = 0xFF02, generic binary = 0xFF03 (the code's ContentType has no video
variant, so the claim's video = 0xFF04 clause is vacuous) — written exactly
once before any chunk output; and for zero-byte input with a tag set, on
either input path, the complete output is exactly those 2 marker bytes. -/
theorem claim_C7_content_type_marker :
    (markerBytes (some ContentType.text) = [0xFF, 0x01] ∧
     markerBytes (some ContentType.audio) = [0xFF, 0x02] ∧
     markerBytes (some ContentType.bin) = [0xFF, 0x03]) ∧
    (∀ ct : ContentType, (markerBytes (some ct)).length = 2 ∧
      markerBytes (some ct) = toBeBytes ct.get_token_value) ∧
    (∀ (ct : Option ContentType) (body : List Nat),
      fullOutput ct body = markerBytes ct ++ body) ∧
    (∀ (ct : ContentType) (f : List Nat → List Nat) (size : Nat),
      fullOutput (some ct) (mmapPipelineOutput f [] size []) =
        markerBytes (some ct) ∧
      fullOutput (some ct) (streamPipelineOutput f [] []) =
        markerBytes (some ct)) := by
  refine ⟨by decide, fun ct => ⟨rfl, rfl⟩, fun ct body => rfl, fun ct f size => ?_⟩
  constructor
  · simp [fullOutput, mmapPipelineOutput, pipelineRun, runPipeline, initContext]
  · simp [fullOutput, streamPipelineOutput, pipelineRun, runPipeline, initContext]

/-- Claim C8: byte-pair merging "abcab" with table {(97,98)→256} yields the
token sequence [256, 99, 256], and serializing each token as 2 big-endian
bytes gives exactly [0x01,0x00, 0x00,0x63, 0x01,0x00]. -/
theorem claim_C8_scenario_A :
    mergeLoop [((97,98),256)] [97,98,99,97,98] = [256,99,256] ∧
    bpeProcessChunk [((97,98),256)] [97,98,99,97,98] = [1,0,0,99,1,0] := by
  constructor
  · simp [mergeLoop, mergePass, lookupMerge]
  · simp [bpeProcessChunk, mergeLoop, mergePass, lookupMerge, toBeBytes]

/-- Claim C9: the passthrough strategy's process_chunk returns its input
bytes unchanged, for every input including the empty one; in particular the
output length equals the input length. -/
theorem claim_C9_passthrough_identity :
    ∀ chunk : List Nat, passthroughProcessChunk chunk = chunk ∧
      (passthroughProcessChunk chunk).length = chunk.length :=
  fun _ => ⟨rfl, rfl⟩

/-- Claim C10: the pass loop in BpeStrategy::process_chunk terminates for
every input and merge table: a pass that performs at least one merge strictly
decreases the token vector's length, a pass that performs none exits the loop
leaving the vector unchanged, and the number of passes on a non-empty input
is bounded by the input length. -/
theorem claim_C10_bpe_terminates :
    (∀ (merges : BpeMerges) (l : List Nat), (mergePass merges l).2 = true →
      (mergePass merges l).1.length < l.length) ∧
    (∀ (merges : BpeMerges) (l : List Nat), (mergePass merges l).2 = false →
      (mergePass merges l).1 = l) ∧
    (∀ (merges : BpeMerges) (tokens : List Nat), tokens ≠ [] →
      passCount merges tokens ≤ tokens.length) :=
  ⟨mergePass_length_lt, mergePass_false_eq, passCount_le_length⟩

theorem claim_C10_witness :
    (mergePass [((1,2),5)] [1,2]).1.length < ([1,2] : List Nat).length ∧
    (mergePass [((3,4),6)] [1,2]).1 = [1,2] ∧
    passCount [((1,2),5)] [1,2] ≤ ([1,2] : List Nat).length :=
  ⟨claim_C10_bpe_terminates.1 [((1,2),5)] [1,2] (by decide),
   claim_C10_bpe_terminates.2.1 [((3,4),6)] [1,2] (by decide),
   claim_C10_bpe_terminates.2.2 [((1,2),5)] [1,2] (by decide)⟩
